import Mathlib

set_option linter.unusedSectionVars false

/-!
Verification development for the `stdx` sharded concurrent map (`cmap`)
and its hashing subsystem (`hash`), together with the `optional` package
they consume.  Go code is shallowly embedded: Go's built-in `map[K]V` is
modelled as an association list with unique keys, Go `uint32` arithmetic
is `Nat` arithmetic taken modulo `2^32`, and the per-shard locks are
dropped (we model the sequential, data-level behaviour; lock acquisition
has no effect on values).  `hash/maphash` digests are modelled by an
abstract pure function carried by the map, exactly as the Go value
`hashFunc hash.Hasher[K]` is a pure function of `(seed, key)`.
-/

namespace optional

/-- State tag of `optional.Option` (src/optional/doc.go): `stateAbsent`,
`statePresent`, `stateNil` in declaration order. -/
inductive OState where
  | stateAbsent
  | statePresent
  | stateNil
deriving DecidableEq, Repr

/-- Model of `optional.Option[T]` (src/optional/doc.go): a state tag plus a
stored value.  In Go the value field of an absent option holds `T`'s zero
value; we model the zero value by `default`. -/
structure Option (T : Type) where
  state : OState
  value : T
deriving DecidableEq, Repr

/-- Model of `optional.Some` (src/optional/doc.go). -/
def Some {T : Type} (value : T) : Option T :=
  ⟨.statePresent, value⟩

/-- Model of `optional.None` (src/optional/doc.go); the Go struct literal
leaves `value` at the zero value of `T`. -/
def None {T : Type} [Inhabited T] : Option T :=
  ⟨.stateAbsent, default⟩

/-- Model of `optional.Nil` (src/optional/doc.go). -/
def Nil {T : Type} [Inhabited T] : Option T :=
  ⟨.stateNil, default⟩

/-- Model of `optional.FromPair` (src/optional/doc.go): `if !ok { return
None[T]() }; return Some(value)`. -/
def FromPair {T : Type} [Inhabited T] (value : T) (ok : Bool) : Option T :=
  if !ok then None else Some value

/-- Model of `Option.IsPresent` (src/optional/doc.go): `o.state ==
statePresent`. -/
def Option.IsPresent {T : Type} (o : Option T) : Bool :=
  o.state == .statePresent

/-- Model of `Option.IsAbsent` exactly as written in src/optional/doc.go
line 292: `return o.state != stateAbsent`. -/
def Option.IsAbsent {T : Type} (o : Option T) : Bool :=
  o.state != .stateAbsent

end optional

namespace optionalPrev

/-- Model of the boolean-flag variant of `optional.Option` that also ships
in the repository (src/unnamed/part_016): `isPresent bool` plus the value. -/
structure Option (T : Type) where
  isPresent : Bool
  value : T
deriving DecidableEq, Repr

/-- Model of `Option.IsPresent` from src/unnamed/part_016: `return
o.isPresent`. -/
def Option.IsPresent {T : Type} (o : Option T) : Bool :=
  o.isPresent

/-- Model of `Option.IsAbsent` from src/unnamed/part_016: `return
!o.isPresent`. -/
def Option.IsAbsent {T : Type} (o : Option T) : Bool :=
  !o.isPresent

/-- In the boolean-flag variant of the package, `IsAbsent` is the exact
complement of `IsPresent`, matching both methods' documentation. -/
theorem prevOption_isAbsent_eq_not_isPresent {T : Type} (o : Option T) :
    o.IsAbsent = !o.IsPresent := rfl

end optionalPrev

namespace cmap

/-- Model of a lookup `v, ok := items[key]` in a Go map represented as an
association list (first matching entry wins; shard maps never hold
duplicate keys). -/
def goLookup {K V : Type} [DecidableEq K] : List (K × V) → K → Option V
  | [], _ => none
  | (k', v) :: rest, k => if k' = k then some v else goLookup rest k

/-- Model of a Go map assignment `items[key] = value`: overwrite in place
if the key is present, otherwise add the entry. -/
def goInsert {K V : Type} [DecidableEq K] : List (K × V) → K → V → List (K × V)
  | [], k, v => [(k, v)]
  | (k', v') :: rest, k, v =>
    if k' = k then (k, v) :: rest else (k', v') :: goInsert rest k v

/-- Model of Go's `delete(items, key)`: remove the entry for `key` if
present, otherwise leave the map unchanged. -/
def goDelete {K V : Type} [DecidableEq K] : List (K × V) → K → List (K × V)
  | [], _ => []
  | (k', v') :: rest, k =>
    if k' = k then rest else (k', v') :: goDelete rest k

/-- SHARD_COUNT is the default shard count (src/cmap/doc.go). -/
def SHARD_COUNT : Nat := 32

/-- Model of `cmap.ConcurrentMap[K, V]` (src/cmap/doc.go): the shard slice
(each shard's `items` map as an association list; the per-shard mutex has
no data content), the shard mask, the hash function and the seed.  The
digest function `hashFunc : seed → key → digest` is an abstract pure
function, as `hash.Hasher[K]` is in Go. -/
structure ConcurrentMap (K V : Type) where
  shards : List (List (K × V))
  shardMask : Nat
  hashFunc : Nat → K → Nat
  seed : Nat

variable {K V : Type} [DecidableEq K] [Inhabited V]

/-- Model of `nextPowerOf2`'s five smear steps (src/cmap/doc.go):
`n |= n>>1; n |= n>>2; n |= n>>4; n |= n>>8; n |= n>>16`. -/
def bitSmear (m : Nat) : Nat :=
  let m1 := m ||| (m >>> 1)
  let m2 := m1 ||| (m1 >>> 2)
  let m3 := m2 ||| (m2 >>> 4)
  let m4 := m3 ||| (m3 >>> 8)
  m4 ||| (m4 >>> 16)

/-- Model of `nextPowerOf2` (src/cmap/doc.go): guard `n <= 0`, decrement,
the five smear steps, increment.  Go's `int` is modelled on `Nat`: the
function is only ever applied to the non-negative normalized hint (the
`n = 0` branch is Go's `n <= 0` branch), and on the ranges exercised here
the signed 64-bit operations and the `Nat` operations coincide. -/
def nextPowerOf2 (n : Nat) : Nat :=
  if n = 0 then 1 else bitSmear (n - 1) + 1

/-- Model of `cmap.WithShards` (src/cmap/doc.go): a non-positive hint is
replaced by `SHARD_COUNT`, the count is passed through `nextPowerOf2`,
`shardCount` empty shards are allocated, and the mask is `shardCount - 1`.
The hash function and seed arguments model the construction-time choices
(`hash.GetHashFunc[K]()` / `maphash.MakeSeed()` or their option
overrides). -/
def WithShards (shardCount : Int) (hashFunc : Nat → K → Nat) (seed : Nat) :
    ConcurrentMap K V :=
  let sc : Nat := nextPowerOf2 (if shardCount ≤ 0 then SHARD_COUNT else shardCount.toNat)
  { shards := List.replicate sc []
    shardMask := sc - 1
    hashFunc := hashFunc
    seed := seed }

/-- Model of `cmap.New` (src/cmap/doc.go): `WithShards(SHARD_COUNT, ...)`. -/
def New (hashFunc : Nat → K → Nat) (seed : Nat) : ConcurrentMap K V :=
  WithShards (Int.ofNat SHARD_COUNT) hashFunc seed

/-- Model of `getShard` (src/cmap/doc.go): `hashVal := m.hashFunc(m.seed,
key); index := hashVal & m.shardMask`.  We return the shard index; shard
contents are read off as `m.shards.getD index []`. -/
def getShardIdx (m : ConcurrentMap K V) (key : K) : Nat :=
  (m.hashFunc m.seed key) &&& m.shardMask

/-- Model of `ConcurrentMap.Set` (src/cmap/doc.go): `shard.items[key] =
value` under the shard's lock. -/
def Set (m : ConcurrentMap K V) (key : K) (value : V) : ConcurrentMap K V :=
  let i := getShardIdx m key
  { m with shards := m.shards.set i (goInsert (m.shards.getD i []) key value) }

/-- Model of `ConcurrentMap.Get` (src/cmap/doc.go): `val, ok :=
shard.items[key]; return optional.FromPair(val, ok)`. -/
def Get (m : ConcurrentMap K V) (key : K) : optional.Option V :=
  let s := m.shards.getD (getShardIdx m key) []
  match goLookup s key with
  | some v => optional.FromPair v true
  | none => optional.FromPair default false

/-- Model of `ConcurrentMap.Delete` (src/cmap/doc.go): `delete(shard.items,
key)`; the method has no return value, so the updated map is the whole
result. -/
def Delete (m : ConcurrentMap K V) (key : K) : ConcurrentMap K V :=
  let i := getShardIdx m key
  { m with shards := m.shards.set i (goDelete (m.shards.getD i []) key) }

/-- Model of `ConcurrentMap.Has` (src/cmap/doc.go): `return
m.Get(key).IsPresent()`. -/
def Has (m : ConcurrentMap K V) (key : K) : Bool :=
  (Get m key).IsPresent

/-- Model of `ConcurrentMap.GetOrSet` (src/cmap/doc.go): under the shard's
lock, return `(existingVal, true)` if present, else store `value` and
return `(value, false)`.  The updated map is returned alongside the Go
return pair. -/
def GetOrSet (m : ConcurrentMap K V) (key : K) (value : V) :
    (V × Bool) × ConcurrentMap K V :=
  let i := getShardIdx m key
  let s := m.shards.getD i []
  match goLookup s key with
  | some existingVal => ((existingVal, true), m)
  | none => ((value, false), { m with shards := m.shards.set i (goInsert s key value) })

/-- Model of `ConcurrentMap.SetIfAbsent` (src/cmap/doc.go). -/
def SetIfAbsent (m : ConcurrentMap K V) (key : K) (value : V) :
    Bool × ConcurrentMap K V :=
  let i := getShardIdx m key
  let s := m.shards.getD i []
  match goLookup s key with
  | some _ => (false, m)
  | none => (true, { m with shards := m.shards.set i (goInsert s key value) })

/-- Model of `ConcurrentMap.Remove` (src/cmap/doc.go): `val, ok :=
shard.items[key]; if ok { delete(shard.items, key) }; return
optional.FromPair(val, ok)`. -/
def Remove (m : ConcurrentMap K V) (key : K) :
    optional.Option V × ConcurrentMap K V :=
  let i := getShardIdx m key
  let s := m.shards.getD i []
  match goLookup s key with
  | some v => (optional.FromPair v true,
      { m with shards := m.shards.set i (goDelete s key) })
  | none => (optional.FromPair default false, m)

/-- Model of `ConcurrentMap.Compute` (src/cmap/doc.go): read the old value,
apply `fn` to it as an Option, store and return the new value. -/
def Compute (m : ConcurrentMap K V) (key : K) (fn : optional.Option V → V) :
    V × ConcurrentMap K V :=
  let i := getShardIdx m key
  let s := m.shards.getD i []
  let oldOpt := match goLookup s key with
    | some v => optional.FromPair v true
    | none => optional.FromPair default false
  let newValue := fn oldOpt
  (newValue, { m with shards := m.shards.set i (goInsert s key newValue) })

/-- Model of `ConcurrentMap.Len` (src/cmap/doc.go): the sum of
`len(shard.items)` over all shards. -/
def Len (m : ConcurrentMap K V) : Nat :=
  (m.shards.map List.length).sum

/-- Well-formedness of a map value, as established by `WithShards` and
preserved by every operation: the shard mask is below the number of
shards (so `digest & mask` always lands in the slice), and no shard's
`items` map holds a key twice (Go map keys are unique). -/
def WF (m : ConcurrentMap K V) : Prop :=
  m.shardMask < m.shards.length ∧
    ∀ i, i < m.shards.length → ((m.shards.getD i []).map Prod.fst).Nodup

instance WF_decidable (m : ConcurrentMap K V) : Decidable (WF m) :=
  decidable_of_iff
    (m.shardMask < m.shards.length ∧
      ∀ i, i < m.shards.length → ((m.shards.getD i []).map Prod.fst).Nodup)
    Iff.rfl

end cmap

namespace hash

/-- Model of the `reflect.Kind` values the hashing subsystem inspects (the
kinds named in `flattenStruct` and `CreateStructHasher`, the kinds they
silently skip, and the struct kind itself). -/
inductive GoKind where
  | stringK
  | intK
  | int8K
  | int16K
  | int32K
  | int64K
  | uintK
  | uint8K
  | uint16K
  | uint32K
  | uint64K
  | uintptrK
  | float32K
  | float64K
  | boolK
  | pointerK
  | unsafePointerK
  | sliceK
  | arrayK
  | mapK
  | chanK
  | interfaceK
  | funcK
  | complex64K
  | complex128K
  | structK
deriving DecidableEq, Repr

/-- Model of a Go type as the hashing subsystem sees it: either a
non-struct type of some kind, or a struct with a list of fields, each
field carrying its name, its byte offset within the struct, and its
type. -/
inductive GoType where
  | scalar (kind : GoKind)
  | structT (fields : List (String × Nat × GoType))
deriving Repr

/-- Model of `reflect.Type.Kind()` on a `GoType`. -/
def GoType.kind : GoType → GoKind
  | .scalar k => k
  | .structT _ => .structK

/-- The case list shared by `flattenStruct`'s supported-kind switch case
and `CreateStructHasher`'s per-field switch (src/unnamed/part_017): the
fifteen scalar kinds plus `Pointer` and `UnsafePointer`. -/
def isSupportedFieldKind : GoKind → Bool
  | .stringK | .intK | .int8K | .int16K | .int32K | .int64K
  | .uintK | .uint8K | .uint16K | .uint32K | .uint64K | .uintptrK
  | .float32K | .float64K | .boolK | .pointerK | .unsafePointerK => true
  | _ => false

/-- Model of the `fieldInfo` struct (src/unnamed/part_017): byte offset and
`reflect.Kind` of one descriptor. -/
structure fieldInfo where
  offset : Nat
  kind : GoKind
deriving DecidableEq, Repr

/-- Model of `flattenStruct` (src/unnamed/part_017): walk the fields in
order; skip blank-named fields; record a descriptor for each field whose
kind is in the supported case list; recurse into struct-kind fields with
the accumulated base offset; silently skip every other kind. -/
def flattenStruct : List (String × Nat × GoType) → Nat → List fieldInfo
  | [], _ => []
  | (name, off, ty) :: rest, baseOffset =>
    (if name = "_" then []
     else if isSupportedFieldKind ty.kind then
       [⟨baseOffset + off, ty.kind⟩]
     else match ty with
       | .structT fs => flattenStruct fs (baseOffset + off)
       | .scalar _ => []) ++ flattenStruct rest baseOffset

/-- Reduction of a `Nat` to Go `uint32` range. -/
def u32 (n : Nat) : Nat := n % 4294967296

/-- Model of the hasher closure built by `CreateStructHasher`
(src/unnamed/part_017), specialized to a descriptor list.  The key's
memory is modelled as a map `mem` from byte offset to the (abstractly
encoded) primitive value stored there, and the per-kind primitive
routines (`StringHasher`, `IntHasher`, ..., the `maphash.Bytes` call on a
pointer's address) are modelled by the abstract family `primHash : kind →
seed → value → uint32 digest`.  Each loop iteration computes `fHash` by
the kind switch (zero for a kind outside the case list, as in the Go
switch without default) and then runs
`h ^= fHash + 0x9e3779b9 + (h << 6) + (h >> 2)` in `uint32` arithmetic. -/
def createStructHash (primHash : GoKind → Nat → Nat → Nat) (seed : Nat)
    (mem : Nat → Nat) : List fieldInfo → Nat → Nat
  | [], h => h
  | f :: rest, h =>
    let fHash := if isSupportedFieldKind f.kind then u32 (primHash f.kind seed (mem f.offset)) else 0
    createStructHash primHash seed mem rest
      (h ^^^ u32 (fHash + 0x9e3779b9 + (h <<< 6) + (h >>> 2)))

/-- Digest of a whole struct key: the loop of `CreateStructHasher` started
at `h = 0`. -/
def structHash (fields : List fieldInfo) (primHash : GoKind → Nat → Nat → Nat)
    (seed : Nat) (mem : Nat → Nat) : Nat :=
  createStructHash primHash seed mem fields 0

/-- The Fibonacci-multiplicative mixing step exactly as the specification
states it: `h = h XOR (fieldDigest + 0x9e3779b9 + (h << 6) + (h >> 2))`,
in 32-bit unsigned arithmetic.  This is the specification-side
formulation used to compare with the loop of `CreateStructHasher`. -/
def fibMix (h fieldDigest : Nat) : Nat :=
  h ^^^ u32 (fieldDigest + 0x9e3779b9 + (h <<< 6) + (h >>> 2))

/-- Per-field digest read off by the hasher for one descriptor: the
kind-specific primitive routine applied to the bytes at the recorded
offset (zero for a kind outside the case list, which `flattenStruct`
never emits). -/
def fieldDigest (primHash : GoKind → Nat → Nat → Nat) (seed : Nat)
    (mem : Nat → Nat) (f : fieldInfo) : Nat :=
  if isSupportedFieldKind f.kind then u32 (primHash f.kind seed (mem f.offset)) else 0

/-- Model of a key type as `GetHashFunc` (src/unnamed/part_017) inspects
it: whether the dynamic type is exactly one of the builtin types of the
type switch (given by its kind), the reflective type structure, and
whether the type implements the `Hashable` capability or the `String()
string` capability. -/
structure KeyType where
  builtin : Option GoKind
  ty : GoType
  hashable : Bool
  stringer : Bool

/-- The three shapes of hasher `GetHashFunc` can return: a builtin
primitive hasher, the struct hasher specialized to a descriptor list, or
the fallback closure that dispatches on the `Hashable` and `Stringer`
capabilities at call time. -/
inductive HashStrategy where
  | primitive (kind : GoKind)
  | structLayout (fields : List fieldInfo)
  | dynamicFallback
deriving DecidableEq, Repr

/-- Model of `GetHashFunc` (src/unnamed/part_017): the type switch over
the builtin types picks the dedicated primitive hasher; in the default
branch, a struct kind gets `CreateStructHasher`, and everything else gets
the closure that checks `Hashable`, then `String()`, at call time. -/
def GetHashFunc (t : KeyType) : HashStrategy :=
  match t.builtin with
  | some k => .primitive k
  | none =>
    match t.ty with
    | .structT fs => .structLayout (flattenStruct fs 0)
    | .scalar _ => .dynamicFallback

/-- Call-time behaviour of the hasher returned by `GetHashFunc` on one
fixed key: `primHash` models the builtin per-kind routines, `selfHash`
models the key's own `Hash(seed)` method, `stringHash` models hashing the
key's `String()` text with the seed, `emptyHash` models `maphash.Hash`
finalized with nothing written, and `mem` models the key's memory. -/
def hashKey (t : KeyType) (primHash : GoKind → Nat → Nat → Nat)
    (selfHash : Nat → Nat) (stringHash : Nat → Nat) (emptyHash : Nat → Nat)
    (mem : Nat → Nat) (seed : Nat) : Nat :=
  match GetHashFunc t with
  | .primitive k => u32 (primHash k seed (mem 0))
  | .structLayout fields => structHash fields primHash seed mem
  | .dynamicFallback =>
    if t.hashable then u32 (selfHash seed)
    else if t.stringer then u32 (stringHash seed)
    else u32 (emptyHash seed)

end hash

namespace cmap

variable {K V : Type} [DecidableEq K] [Inhabited V]

/-- A sequence of plain mutations, as in the specification's "N `set` and
M `delete` calls". -/
inductive MapOp (K V : Type) where
  | set (key : K) (value : V)
  | del (key : K)

/-- Apply one mutation. -/
def applyOp (m : ConcurrentMap K V) : MapOp K V → ConcurrentMap K V
  | .set k v => Set m k v
  | .del k => Delete m k

/-- Run a sequence of mutations left to right. -/
def runOps (m : ConcurrentMap K V) (ops : List (MapOp K V)) : ConcurrentMap K V :=
  ops.foldl applyOp m

/-- One step of the specification-side survivor bookkeeping: a `set` makes
the key a survivor (once), a `delete` removes it. -/
def survStep (ks : List K) : MapOp K V → List K
  | .set k _ => if k ∈ ks then ks else ks ++ [k]
  | .del k => ks.erase k

/-- The distinct keys that were set and not subsequently deleted by the
sequence. -/
def survivors (ops : List (MapOp K V)) : List K :=
  ops.foldl survStep []

/-- Key `k` currently resides in shard `i` of `m`. -/
def InShard (m : ConcurrentMap K V) (i : Nat) (k : K) : Prop :=
  k ∈ (m.shards.getD i []).map Prod.fst

end cmap


namespace cmap

variable {K V : Type} [DecidableEq K]

theorem goLookup_insert_self (s : List (K × V)) (k : K) (v : V) :
    goLookup (goInsert s k v) k = some v := by
  induction s with
  | nil => simp [goInsert, goLookup]
  | cons p rest ih =>
    rcases p with ⟨k', v'⟩
    by_cases h : k' = k
    · simp [goInsert, goLookup, h]
    · simp [goInsert, goLookup, h, ih]

theorem goLookup_insert_ne (s : List (K × V)) (k k' : K) (v : V) (h : k' ≠ k) :
    goLookup (goInsert s k v) k' = goLookup s k' := by
  induction s with
  | nil => simp [goInsert, goLookup, Ne.symm h]
  | cons p rest ih =>
    rcases p with ⟨k0, v0⟩
    by_cases h0 : k0 = k
    · subst h0
      simp [goInsert, goLookup, Ne.symm h]
    · by_cases h1 : k0 = k'
      · simp [goInsert, h0, goLookup, h1, h]
      · simp [goInsert, h0, goLookup, h1, ih]

theorem goLookup_delete_ne (s : List (K × V)) (k k' : K) (h : k' ≠ k) :
    goLookup (goDelete s k) k' = goLookup s k' := by
  induction s with
  | nil => simp [goDelete]
  | cons p rest ih =>
    rcases p with ⟨k0, v0⟩
    by_cases h0 : k0 = k
    · subst h0
      simp [goDelete, goLookup, Ne.symm h]
    · by_cases h1 : k0 = k'
      · simp [goDelete, h0, goLookup, h1, h]
      · simp [goDelete, h0, goLookup, h1, ih]

theorem goLookup_isSome_iff_mem (s : List (K × V)) (k : K) :
    (goLookup s k).isSome = true ↔ k ∈ s.map Prod.fst := by
  induction s with
  | nil => simp [goLookup]
  | cons p rest ih =>
    rcases p with ⟨k0, v0⟩
    by_cases h0 : k0 = k
    · simp [goLookup, h0]
    · simp [goLookup, h0, ih, Ne.symm h0]

theorem goLookup_delete_self (s : List (K × V)) (k : K)
    (hnd : (s.map Prod.fst).Nodup) : goLookup (goDelete s k) k = none := by
  induction s with
  | nil => simp [goDelete, goLookup]
  | cons p rest ih =>
    rcases p with ⟨k0, v0⟩
    simp only [List.map_cons, List.nodup_cons] at hnd
    by_cases h0 : k0 = k
    · subst h0
      simp only [goDelete, if_pos rfl]
      cases hl : goLookup rest k0 with
      | none => exact hl
      | some v =>
        exact absurd ((goLookup_isSome_iff_mem rest k0).1 (by simp [hl])) hnd.1
    · simp [goDelete, h0, goLookup, ih hnd.2]

theorem goLookup_isSome_length_pos (s : List (K × V)) (k : K)
    (h : (goLookup s k).isSome) : 0 < s.length := by
  cases s with
  | nil => simp [goLookup] at h
  | cons p rest => simp

theorem goInsert_length (s : List (K × V)) (k : K) (v : V) :
    (goInsert s k v).length =
      if (goLookup s k).isSome then s.length else s.length + 1 := by
  induction s with
  | nil => simp [goInsert, goLookup]
  | cons p rest ih =>
    rcases p with ⟨k0, v0⟩
    by_cases h0 : k0 = k
    · simp [goInsert, goLookup, h0]
    · simp only [goInsert, if_neg h0, goLookup, List.length_cons, ih]
      by_cases hl : (goLookup rest k).isSome
      · simp [hl]
      · simp [hl]

theorem goDelete_length (s : List (K × V)) (k : K) :
    (goDelete s k).length =
      if (goLookup s k).isSome then s.length - 1 else s.length := by
  induction s with
  | nil => simp [goDelete, goLookup]
  | cons p rest ih =>
    rcases p with ⟨k0, v0⟩
    by_cases h0 : k0 = k
    · simp [goDelete, goLookup, h0]
    · simp only [goDelete, if_neg h0, goLookup, List.length_cons, ih]
      by_cases hl : (goLookup rest k).isSome
      · have hp := goLookup_isSome_length_pos rest k hl
        simp [hl]
        omega
      · simp [hl]

theorem goInsert_mem (s : List (K × V)) (k : K) (v : V) (p : K × V)
    (hp : p ∈ goInsert s k v) : p.1 = k ∨ p ∈ s := by
  induction s with
  | nil => simp [goInsert] at hp; simp [hp]
  | cons q rest ih =>
    rcases q with ⟨k0, v0⟩
    by_cases h0 : k0 = k
    · subst h0
      simp only [goInsert, if_pos rfl] at hp
      rcases List.mem_cons.1 hp with hp | hp
      · exact Or.inl (by simp [hp])
      · exact Or.inr (List.mem_cons_of_mem _ hp)
    · simp only [goInsert, if_neg h0] at hp
      rcases List.mem_cons.1 hp with hp | hp
      · exact Or.inr (hp ▸ List.mem_cons_self _ _)
      · rcases ih hp with h | h
        · exact Or.inl h
        · exact Or.inr (List.mem_cons_of_mem _ h)

theorem goInsert_keys_mem (s : List (K × V)) (k : K) (v : V) (k' : K)
    (hk : k' ∈ (goInsert s k v).map Prod.fst) :
    k' = k ∨ k' ∈ s.map Prod.fst := by
  rcases List.mem_map.1 hk with ⟨p, hp, hfst⟩
  rcases goInsert_mem s k v p hp with h | h
  · exact Or.inl (hfst ▸ h)
  · exact Or.inr (List.mem_map.2 ⟨p, h, hfst⟩)

theorem goInsert_keys_nodup (s : List (K × V)) (k : K) (v : V)
    (hnd : (s.map Prod.fst).Nodup) : ((goInsert s k v).map Prod.fst).Nodup := by
  induction s with
  | nil => simp [goInsert]
  | cons p rest ih =>
    rcases p with ⟨k0, v0⟩
    simp only [List.map_cons, List.nodup_cons] at hnd
    by_cases h0 : k0 = k
    · subst h0
      have hrw : goInsert ((k0, v0) :: rest) k0 v = (k0, v) :: rest := by
        simp [goInsert]
      rw [hrw]
      simp only [List.map_cons, List.nodup_cons]
      exact hnd
    · have hrw : goInsert ((k0, v0) :: rest) k v = (k0, v0) :: goInsert rest k v := by
        simp [goInsert, h0]
      rw [hrw]
      simp only [List.map_cons, List.nodup_cons]
      refine ⟨?_, ih hnd.2⟩
      intro hmem
      rcases goInsert_keys_mem rest k v k0 hmem with h | h
      · exact h0 h
      · exact hnd.1 h

theorem goDelete_sublist (s : List (K × V)) (k : K) :
    List.Sublist (goDelete s k) s := by
  induction s with
  | nil => simp [goDelete]
  | cons p rest ih =>
    rcases p with ⟨k0, v0⟩
    by_cases h0 : k0 = k
    · simp only [goDelete, if_pos h0]
      exact List.sublist_cons_self _ _
    · simp only [goDelete, if_neg h0]
      exact List.Sublist.cons₂ _ ih

theorem goDelete_keys_nodup (s : List (K × V)) (k : K)
    (hnd : (s.map Prod.fst).Nodup) : ((goDelete s k).map Prod.fst).Nodup :=
  List.Nodup.sublist (List.Sublist.map Prod.fst (goDelete_sublist s k)) hnd

theorem goDelete_mem (s : List (K × V)) (k : K) (p : K × V)
    (hp : p ∈ goDelete s k) : p ∈ s :=
  (goDelete_sublist s k).mem hp

end cmap

namespace cmap

variable {K V : Type} [DecidableEq K]

theorem getD_set_self {α : Type} (l : List α) (i : Nat) (t d : α)
    (h : i < l.length) : (l.set i t).getD i d = t := by
  simp [List.getD_eq_getElem?_getD, List.getElem?_set_self, h]

theorem getD_set_ne {α : Type} (l : List α) (i j : Nat) (t d : α)
    (h : i ≠ j) : (l.set i t).getD j d = l.getD j d := by
  simp [List.getD_eq_getElem?_getD, List.getElem?_set_ne h]

theorem getD_replicate_nil {α : Type} (n i : Nat) :
    (List.replicate n ([] : List α)).getD i [] = [] := by
  rcases lt_or_ge i n with h | h
  · simp [List.getD_eq_getElem?_getD, List.getElem?_replicate, h]
  · simp [List.getD_eq_getElem?_getD, List.getElem?_eq_none, h]

theorem sumLen_set {α : Type} (l : List (List α)) (i : Nat) (t : List α)
    (h : i < l.length) :
    ((l.set i t).map List.length).sum + (l.getD i []).length =
      (l.map List.length).sum + t.length := by
  induction l generalizing i with
  | nil => simp at h
  | cons s rest ih =>
    cases i with
    | zero => simp [List.getD_cons_zero]; omega
    | succ j =>
      have hj : j < rest.length := by simpa using h
      have := ih j hj
      simp only [List.set_cons_succ, List.map_cons, List.sum_cons,
        List.getD_cons_succ]
      omega

theorem set_getD_self {α : Type} (l : List α) (i : Nat) (d : α)
    (h : i < l.length) : l.set i (l.getD i d) = l := by
  induction l generalizing i with
  | nil => simp at h
  | cons a rest ih =>
    cases i with
    | zero => simp [List.getD_cons_zero]
    | succ j =>
      have hj : j < rest.length := by simpa using h
      show a :: rest.set j (rest.getD j d) = a :: rest
      rw [ih j hj]

theorem getShardIdx_le_mask (m : ConcurrentMap K V) (k : K) :
    getShardIdx m k ≤ m.shardMask :=
  Nat.and_le_right

theorem getShardIdx_lt (m : ConcurrentMap K V) (k : K) (h : WF m) :
    getShardIdx m k < m.shards.length :=
  Nat.lt_of_le_of_lt (getShardIdx_le_mask m k) h.1

theorem getShardIdx_Set (m : ConcurrentMap K V) (k v k') [Inhabited V] :
    getShardIdx (Set m k v) k' = getShardIdx m k' := rfl

theorem getShardIdx_Delete (m : ConcurrentMap K V) (k k') :
    getShardIdx (Delete m k) k' = getShardIdx m k' := rfl

theorem shards_length_Set (m : ConcurrentMap K V) (k : K) (v : V) :
    (Set m k v).shards.length = m.shards.length := by
  simp [Set]

theorem shards_length_Delete (m : ConcurrentMap K V) (k : K) :
    (Delete m k).shards.length = m.shards.length := by
  simp [Delete]

theorem WF_Set (m : ConcurrentMap K V) (k : K) (v : V) (h : WF m) :
    WF (Set m k v) := by
  refine ⟨by rw [shards_length_Set]; exact h.1, ?_⟩
  intro i hi
  rw [shards_length_Set] at hi
  show (((m.shards.set (getShardIdx m k)
      (goInsert (m.shards.getD (getShardIdx m k) []) k v)).getD i []).map Prod.fst).Nodup
  by_cases hik : getShardIdx m k = i
  · subst hik
    rw [getD_set_self _ _ _ _ (getShardIdx_lt m k h)]
    exact goInsert_keys_nodup _ _ _ (h.2 _ (getShardIdx_lt m k h))
  · rw [getD_set_ne _ _ _ _ _ hik]
    exact h.2 i hi

theorem WF_Delete (m : ConcurrentMap K V) (k : K) (h : WF m) :
    WF (Delete m k) := by
  refine ⟨by rw [shards_length_Delete]; exact h.1, ?_⟩
  intro i hi
  rw [shards_length_Delete] at hi
  show (((m.shards.set (getShardIdx m k)
      (goDelete (m.shards.getD (getShardIdx m k) []) k)).getD i []).map Prod.fst).Nodup
  by_cases hik : getShardIdx m k = i
  · subst hik
    rw [getD_set_self _ _ _ _ (getShardIdx_lt m k h)]
    exact goDelete_keys_nodup _ _ (h.2 _ (getShardIdx_lt m k h))
  · rw [getD_set_ne _ _ _ _ _ hik]
    exact h.2 i hi

variable [Inhabited V]

theorem Has_eq_isSome (m : ConcurrentMap K V) (k : K) :
    Has m k = (goLookup (m.shards.getD (getShardIdx m k) []) k).isSome := by
  show (match goLookup (m.shards.getD (getShardIdx m k) []) k with
    | some v => optional.FromPair v true
    | none => optional.FromPair default false).IsPresent = _
  cases h : goLookup (m.shards.getD (getShardIdx m k) []) k with
  | none => rfl
  | some v => rfl

theorem Get_Set_self (m : ConcurrentMap K V) (k : K) (v : V) (h : WF m) :
    Get (Set m k v) k = optional.Some v := by
  show (match goLookup ((Set m k v).shards.getD (getShardIdx (Set m k v) k) []) k with
    | some v => optional.FromPair v true
    | none => optional.FromPair default false) = optional.Some v
  rw [show getShardIdx (Set m k v) k = getShardIdx m k from rfl,
    show (Set m k v).shards = m.shards.set (getShardIdx m k)
      (goInsert (m.shards.getD (getShardIdx m k) []) k v) from rfl,
    getD_set_self _ _ _ _ (getShardIdx_lt m k h), goLookup_insert_self]
  rfl

theorem Get_Set_ne (m : ConcurrentMap K V) (k k' : K) (v : V) (hne : k' ≠ k) :
    Get (Set m k v) k' = Get m k' := by
  show (match goLookup ((Set m k v).shards.getD (getShardIdx (Set m k v) k') []) k' with
    | some v => optional.FromPair v true
    | none => optional.FromPair default false) = Get m k'
  rw [show getShardIdx (Set m k v) k' = getShardIdx m k' from rfl,
    show (Set m k v).shards = m.shards.set (getShardIdx m k)
      (goInsert (m.shards.getD (getShardIdx m k) []) k v) from rfl]
  by_cases hik : getShardIdx m k = getShardIdx m k'
  · rcases lt_or_ge (getShardIdx m k) m.shards.length with hb | hb
    · rw [← hik, getD_set_self _ _ _ _ hb, goLookup_insert_ne _ _ _ _ hne, hik]
      rfl
    · rw [List.set_eq_of_length_le hb]
      rfl
  · rw [getD_set_ne _ _ _ _ _ hik]
    rfl

theorem Get_Delete_self (m : ConcurrentMap K V) (k : K) (h : WF m) :
    Get (Delete m k) k = optional.None := by
  show (match goLookup ((Delete m k).shards.getD (getShardIdx (Delete m k) k) []) k with
    | some v => optional.FromPair v true
    | none => optional.FromPair default false) = optional.None
  rw [show getShardIdx (Delete m k) k = getShardIdx m k from rfl,
    show (Delete m k).shards = m.shards.set (getShardIdx m k)
      (goDelete (m.shards.getD (getShardIdx m k) []) k) from rfl,
    getD_set_self _ _ _ _ (getShardIdx_lt m k h),
    goLookup_delete_self _ _ (h.2 _ (getShardIdx_lt m k h))]
  rfl

theorem Get_Delete_ne (m : ConcurrentMap K V) (k k' : K) (hne : k' ≠ k) :
    Get (Delete m k) k' = Get m k' := by
  show (match goLookup ((Delete m k).shards.getD (getShardIdx (Delete m k) k') []) k' with
    | some v => optional.FromPair v true
    | none => optional.FromPair default false) = Get m k'
  rw [show getShardIdx (Delete m k) k' = getShardIdx m k' from rfl,
    show (Delete m k).shards = m.shards.set (getShardIdx m k)
      (goDelete (m.shards.getD (getShardIdx m k) []) k) from rfl]
  by_cases hik : getShardIdx m k = getShardIdx m k'
  · rcases lt_or_ge (getShardIdx m k) m.shards.length with hb | hb
    · rw [← hik, getD_set_self _ _ _ _ hb, goLookup_delete_ne _ _ _ hne, hik]
      rfl
    · rw [List.set_eq_of_length_le hb]
      rfl
  · rw [getD_set_ne _ _ _ _ _ hik]
    rfl

end cmap

namespace cmap

variable {K V : Type} [DecidableEq K] [Inhabited V]

theorem Has_Set (m : ConcurrentMap K V) (k v k') (h : WF m) :
    Has (Set m k v) k' = if k' = k then true else Has m k' := by
  by_cases hk : k' = k
  · subst hk
    simp only [if_pos rfl]
    unfold Has
    rw [Get_Set_self m k' v h]
    rfl
  · simp only [if_neg hk]
    unfold Has
    rw [Get_Set_ne m k k' v hk]

theorem Has_Delete (m : ConcurrentMap K V) (k k') (h : WF m) :
    Has (Delete m k) k' = if k' = k then false else Has m k' := by
  by_cases hk : k' = k
  · subst hk
    simp only [if_pos rfl]
    unfold Has
    rw [Get_Delete_self m k' h]
    rfl
  · simp only [if_neg hk]
    unfold Has
    rw [Get_Delete_ne m k k' hk]

theorem getD_length_le_sum {α : Type} (l : List (List α)) (i : Nat) :
    (l.getD i []).length ≤ (l.map List.length).sum := by
  induction l generalizing i with
  | nil => simp
  | cons s rest ih =>
    cases i with
    | zero => simp [List.getD_cons_zero]
    | succ j =>
      have := ih j
      simp only [List.getD_cons_succ, List.map_cons, List.sum_cons]
      omega

theorem Len_pos_of_Has (m : ConcurrentMap K V) (k : K) (h : Has m k = true) :
    0 < Len m := by
  rw [Has_eq_isSome] at h
  have h1 := goLookup_isSome_length_pos _ _ h
  have h2 := getD_length_le_sum m.shards (getShardIdx m k)
  unfold Len
  omega

theorem Len_Set (m : ConcurrentMap K V) (k : K) (v : V) (h : WF m) :
    Len (Set m k v) = if Has m k then Len m else Len m + 1 := by
  have hb := getShardIdx_lt m k h
  have hsum := sumLen_set m.shards (getShardIdx m k)
    (goInsert (m.shards.getD (getShardIdx m k) []) k v) hb
  have hlen := goInsert_length (m.shards.getD (getShardIdx m k) []) k v
  have hhas := Has_eq_isSome m k
  show ((m.shards.set (getShardIdx m k)
    (goInsert (m.shards.getD (getShardIdx m k) []) k v)).map List.length).sum = _
  by_cases hl : (goLookup (m.shards.getD (getShardIdx m k) []) k).isSome
  · rw [hl] at hhas
    rw [if_pos hl] at hlen
    rw [hhas, if_pos rfl]
    unfold Len
    omega
  · have hfalse : Has m k = false := by rw [hhas]; simpa using hl
    rw [if_neg hl] at hlen
    rw [hfalse]
    simp only [Bool.false_eq_true, if_false]
    unfold Len
    omega

theorem Len_Delete (m : ConcurrentMap K V) (k : K) (h : WF m) :
    Len (Delete m k) = if Has m k then Len m - 1 else Len m := by
  have hb := getShardIdx_lt m k h
  have hsum := sumLen_set m.shards (getShardIdx m k)
    (goDelete (m.shards.getD (getShardIdx m k) []) k) hb
  have hlen := goDelete_length (m.shards.getD (getShardIdx m k) []) k
  have hhas := Has_eq_isSome m k
  show ((m.shards.set (getShardIdx m k)
    (goDelete (m.shards.getD (getShardIdx m k) []) k)).map List.length).sum = _
  by_cases hl : (goLookup (m.shards.getD (getShardIdx m k) []) k).isSome
  · have hp := goLookup_isSome_length_pos _ _ hl
    rw [hl] at hhas
    rw [if_pos hl] at hlen
    rw [hhas, if_pos rfl]
    unfold Len
    omega
  · have hfalse : Has m k = false := by rw [hhas]; simpa using hl
    rw [if_neg hl] at hlen
    rw [hfalse]
    simp only [Bool.false_eq_true, if_false]
    unfold Len
    omega

/-- Every entry of shard `i` hashes to shard index `i` ("every key resides
in exactly one shard"). -/
def Routed (m : ConcurrentMap K V) : Prop :=
  ∀ i (p : K × V), p ∈ m.shards.getD i [] → getShardIdx m p.1 = i

theorem Routed_Set (m : ConcurrentMap K V) (k : K) (v : V) (h : WF m)
    (hr : Routed m) : Routed (Set m k v) := by
  intro i p hp
  have hb := getShardIdx_lt m k h
  rw [show getShardIdx (Set m k v) p.1 = getShardIdx m p.1 from rfl]
  have hsh : (Set m k v).shards = m.shards.set (getShardIdx m k)
      (goInsert (m.shards.getD (getShardIdx m k) []) k v) := rfl
  rw [hsh] at hp
  by_cases hik : getShardIdx m k = i
  · subst hik
    rw [getD_set_self _ _ _ _ hb] at hp
    rcases goInsert_mem _ _ _ _ hp with h1 | h1
    · rw [h1]
    · exact hr _ p h1
  · rw [getD_set_ne _ _ _ _ _ hik] at hp
    exact hr _ p hp

theorem Routed_Delete (m : ConcurrentMap K V) (k : K) (h : WF m)
    (hr : Routed m) : Routed (Delete m k) := by
  intro i p hp
  have hb := getShardIdx_lt m k h
  rw [show getShardIdx (Delete m k) p.1 = getShardIdx m p.1 from rfl]
  have hsh : (Delete m k).shards = m.shards.set (getShardIdx m k)
      (goDelete (m.shards.getD (getShardIdx m k) []) k) := rfl
  rw [hsh] at hp
  by_cases hik : getShardIdx m k = i
  · subst hik
    rw [getD_set_self _ _ _ _ hb] at hp
    exact hr _ p (goDelete_mem _ _ _ hp)
  · rw [getD_set_ne _ _ _ _ _ hik] at hp
    exact hr _ p hp

/-- The induction invariant tying a reachable map to the
specification-side survivor list: well-formedness, correct shard routing,
size agreement, and membership agreement. -/
def Inv (m : ConcurrentMap K V) (ks : List K) : Prop :=
  WF m ∧ Routed m ∧ Len m = ks.length ∧ ks.Nodup ∧
    ∀ k, Has m k = true ↔ k ∈ ks

theorem Inv_step (m : ConcurrentMap K V) (ks : List K) (op : MapOp K V)
    (h : Inv m ks) : Inv (applyOp m op) (survStep ks op) := by
  obtain ⟨hwf, hr, hlen, hnd, hmem⟩ := h
  cases op with
  | set k v =>
    refine ⟨WF_Set m k v hwf, Routed_Set m k v hwf hr, ?_, ?_, ?_⟩
    · show Len (Set m k v) = _
      rw [Len_Set m k v hwf]
      by_cases hk : Has m k
      · have hkmem : k ∈ ks := (hmem k).1 hk
        simp [survStep, hk, hkmem, hlen]
      · have hkmem : k ∉ ks := fun hc => hk ((hmem k).2 hc)
        simp [survStep, hk, hkmem, hlen]
    · show (survStep ks (MapOp.set k v)).Nodup
      by_cases hkmem : k ∈ ks
      · simpa [survStep, hkmem] using hnd
      · simp [survStep, hkmem, List.nodup_append, hnd]
    · intro k'
      show Has (Set m k v) k' = true ↔ k' ∈ survStep ks (MapOp.set k v)
      rw [Has_Set m k v k' hwf]
      by_cases hk : k' = k
      · subst hk
        by_cases hkmem : k' ∈ ks <;> simp [survStep, hkmem]
      · by_cases hkmem : k ∈ ks
        · simp [survStep, hk, hkmem, hmem k']
        · simp [survStep, hk, hkmem, hmem k']
  | del k =>
    refine ⟨WF_Delete m k hwf, Routed_Delete m k hwf hr, ?_, ?_, ?_⟩
    · show Len (Delete m k) = _
      rw [Len_Delete m k hwf]
      by_cases hk : Has m k
      · have hkmem : k ∈ ks := (hmem k).1 hk
        simp [survStep, hk, hlen, List.length_erase_of_mem hkmem]
      · have hkmem : k ∉ ks := fun hc => hk ((hmem k).2 hc)
        simp [survStep, hk, hlen, List.erase_of_not_mem hkmem]
    · exact List.Nodup.erase k hnd
    · intro k'
      show Has (Delete m k) k' = true ↔ k' ∈ ks.erase k
      rw [Has_Delete m k k' hwf, hnd.mem_erase_iff]
      by_cases hk : k' = k
      · simp [hk]
      · simp [hk, hmem k']

theorem Inv_run (m : ConcurrentMap K V) (ks : List K) (ops : List (MapOp K V))
    (h : Inv m ks) : Inv (runOps m ops) (ops.foldl survStep ks) := by
  induction ops generalizing m ks with
  | nil => exact h
  | cons op rest ih => exact ih _ _ (Inv_step m ks op h)

theorem nextPowerOf2_pos (n : Nat) : 0 < nextPowerOf2 n := by
  unfold nextPowerOf2
  split <;> omega

theorem WithShards_shards_length (hint : Int) (hf : Nat → K → Nat) (seed : Nat) :
    (WithShards (K := K) (V := V) hint hf seed).shards.length =
      nextPowerOf2 (if hint ≤ 0 then SHARD_COUNT else hint.toNat) := by
  simp [WithShards]

theorem Inv_init (hint : Int) (hf : Nat → K → Nat) (seed : Nat) :
    Inv (WithShards (K := K) (V := V) hint hf seed) [] := by
  refine ⟨⟨?_, ?_⟩, ?_, ?_, ?_, ?_⟩
  · show nextPowerOf2 _ - 1 < (List.replicate (nextPowerOf2 _) ([] : List (K × V))).length
    rw [List.length_replicate]
    have := nextPowerOf2_pos (if hint ≤ 0 then SHARD_COUNT else hint.toNat)
    omega
  · intro i _
    show (((List.replicate _ ([] : List (K × V))).getD i []).map Prod.fst).Nodup
    rw [getD_replicate_nil]
    exact List.nodup_nil
  · intro i p hp
    rw [show (WithShards (K := K) (V := V) hint hf seed).shards
      = List.replicate (nextPowerOf2 (if hint ≤ 0 then SHARD_COUNT else hint.toNat)) [] from rfl,
      getD_replicate_nil] at hp
    exact absurd hp (List.not_mem_nil p)
  · show ((List.replicate _ ([] : List (K × V))).map List.length).sum = _
    simp
  · exact List.nodup_nil
  · intro k
    rw [Has_eq_isSome]
    rw [show (WithShards (K := K) (V := V) hint hf seed).shards
      = List.replicate (nextPowerOf2 (if hint ≤ 0 then SHARD_COUNT else hint.toNat)) [] from rfl,
      getD_replicate_nil]
    simp [goLookup]

end cmap

namespace cmap

theorem testBit_or_shift (x s i : Nat) :
    (x ||| (x >>> s)).testBit i = (x.testBit i || x.testBit (i + s)) := by
  rw [Nat.testBit_lor, Nat.testBit_shiftRight, Nat.add_comm s i]

theorem smear_step {m X c : Nat}
    (h : ∀ i, X.testBit i = true ↔ ∃ d, d < c ∧ m.testBit (i + d) = true) :
    ∀ i, (X ||| (X >>> c)).testBit i = true ↔
      ∃ d, d < c + c ∧ m.testBit (i + d) = true := by
  intro i
  rw [testBit_or_shift, Bool.or_eq_true]
  constructor
  · rintro (hb | hb)
    · rcases (h i).1 hb with ⟨d, hd, hbit⟩
      exact ⟨d, by omega, hbit⟩
    · rcases (h (i + c)).1 hb with ⟨d, hd, hbit⟩
      refine ⟨c + d, by omega, ?_⟩
      have he : i + (c + d) = i + c + d := by omega
      rw [he]
      exact hbit
  · rintro ⟨d, hd, hbit⟩
    by_cases hdc : d < c
    · exact Or.inl ((h i).2 ⟨d, hdc, hbit⟩)
    · refine Or.inr ((h (i + c)).2 ⟨d - c, by omega, ?_⟩)
      have he : i + c + (d - c) = i + d := by omega
      rw [he]
      exact hbit

theorem bitSmear_testBit (m : Nat) :
    ∀ i, (bitSmear m).testBit i = true ↔
      ∃ d, d < 32 ∧ m.testBit (i + d) = true := by
  have h0 : ∀ i, m.testBit i = true ↔ ∃ d, d < 1 ∧ m.testBit (i + d) = true := by
    intro i
    constructor
    · intro hb
      exact ⟨0, by omega, by simpa using hb⟩
    · rintro ⟨d, hd, hb⟩
      have : d = 0 := by omega
      subst this
      simpa using hb
  have h1 := smear_step h0
  have h2 := smear_step h1
  have h3 := smear_step h2
  have h4 := smear_step h3
  have h5 := smear_step h4
  intro i
  exact h5 i

theorem bitSmear_eq_pow_sub_one {m k : Nat} (hk : m.testBit k = true)
    (hub : m < 2 ^ (k + 1)) (hk31 : k ≤ 31) :
    bitSmear m = 2 ^ (k + 1) - 1 := by
  apply Nat.eq_of_testBit_eq
  intro i
  rw [Nat.testBit_two_pow_sub_one]
  by_cases hik : i < k + 1
  · rw [decide_eq_true hik]
    refine (bitSmear_testBit m i).2 ⟨k - i, by omega, ?_⟩
    have he : i + (k - i) = k := by omega
    rw [he]
    exact hk
  · rw [decide_eq_false hik]
    cases hbit : (bitSmear m).testBit i with
    | false => rfl
    | true =>
      exfalso
      rcases (bitSmear_testBit m i).1 hbit with ⟨d, _, hb⟩
      have hfalse : m.testBit (i + d) = false :=
        Nat.testBit_lt_two_pow (lt_of_lt_of_le hub (Nat.pow_le_pow_right (by omega) (by omega)))
      rw [hfalse] at hb
      exact Bool.false_ne_true hb

theorem testBit_log2 {m : Nat} (h : m ≠ 0) : m.testBit m.log2 = true := by
  have hle : 2 ^ m.log2 ≤ m := Nat.log2_self_le h
  have hlt : m < 2 ^ (m.log2 + 1) := Nat.lt_log2_self
  have hpos : 0 < 2 ^ m.log2 := Nat.pos_pow_of_pos _ (by omega)
  have hdiv : m / 2 ^ m.log2 = 1 := by
    apply Nat.div_eq_of_lt_le
    · simpa using hle
    · have : (1 + 1) * 2 ^ m.log2 = 2 ^ (m.log2 + 1) := by ring
      omega
  rw [Nat.testBit_to_div_mod, hdiv]
  rfl

theorem nextPowerOf2_spec (n : Nat) (h1 : 1 ≤ n) (h2 : n ≤ 2 ^ 32) :
    ∃ k, nextPowerOf2 n = 2 ^ k ∧ n ≤ 2 ^ k ∧ 2 ^ k < 2 * n := by
  rcases eq_or_lt_of_le h1 with he | hgt
  · refine ⟨0, ?_, ?_, ?_⟩ <;> simp [← he, nextPowerOf2, bitSmear]
  · set m := n - 1 with hm
    have hmne : m ≠ 0 := by omega
    set k := m.log2 with hk
    have hle : 2 ^ k ≤ m := Nat.log2_self_le hmne
    have hlt : m < 2 ^ (k + 1) := Nat.lt_log2_self
    have hk31 : k ≤ 31 := by
      have : m.log2 < 32 := (Nat.log2_lt hmne).2 (by omega)
      omega
    have hsm : bitSmear m = 2 ^ (k + 1) - 1 :=
      bitSmear_eq_pow_sub_one (testBit_log2 hmne) hlt hk31
    have hpow : 0 < 2 ^ (k + 1) := Nat.pos_pow_of_pos _ (by omega)
    refine ⟨k + 1, ?_, by omega, ?_⟩
    · unfold nextPowerOf2
      rw [if_neg (by omega : ¬ n = 0), ← hm, hsm]
      omega
    · have : 2 ^ (k + 1) = 2 ^ k * 2 := pow_succ 2 k
      omega

end cmap

namespace cmap

variable {K V : Type} [DecidableEq K] [Inhabited V]

theorem Get_eq_some_iff (m : ConcurrentMap K V) (k : K) (v0 : V) :
    Get m k = optional.Some v0 ↔
      goLookup (m.shards.getD (getShardIdx m k) []) k = some v0 := by
  show (match goLookup (m.shards.getD (getShardIdx m k) []) k with
    | some v => optional.FromPair v true
    | none => optional.FromPair default false) = optional.Some v0 ↔ _
  cases hl : goLookup (m.shards.getD (getShardIdx m k) []) k with
  | none =>
    simp [optional.FromPair, optional.None, optional.Some, optional.Option.mk.injEq]
  | some v =>
    simp [optional.FromPair, optional.Some, optional.Option.mk.injEq]

theorem Has_false_lookup_none (m : ConcurrentMap K V) (k : K)
    (h : Has m k = false) :
    goLookup (m.shards.getD (getShardIdx m k) []) k = none := by
  have hh := Has_eq_isSome m k
  rw [h] at hh
  cases hx : goLookup (m.shards.getD (getShardIdx m k) []) k with
  | none => rfl
  | some v =>
    rw [hx] at hh
    simp at hh

theorem goDelete_of_absent (s : List (K × V)) (k : K)
    (h : goLookup s k = none) : goDelete s k = s := by
  induction s with
  | nil => rfl
  | cons p rest ih =>
    rcases p with ⟨k0, v0⟩
    by_cases h0 : k0 = k
    · rw [goLookup, if_pos h0] at h
      exact absurd h (by simp)
    · rw [goLookup, if_neg h0] at h
      rw [goDelete, if_neg h0, ih h]

theorem getShardIdx_applyOp (m : ConcurrentMap K V) (op : MapOp K V) (k : K) :
    getShardIdx (applyOp m op) k = getShardIdx m k := by
  cases op <;> rfl

theorem hashSeed_applyOp (m : ConcurrentMap K V) (op : MapOp K V) (k : K) :
    (applyOp m op).hashFunc (applyOp m op).seed k = m.hashFunc m.seed k := by
  cases op <;> rfl

theorem getShardIdx_runOps (m : ConcurrentMap K V) (ops : List (MapOp K V)) (k : K) :
    getShardIdx (runOps m ops) k = getShardIdx m k := by
  induction ops generalizing m with
  | nil => rfl
  | cons op rest ih =>
    show getShardIdx (runOps (applyOp m op) rest) k = _
    rw [ih (applyOp m op), getShardIdx_applyOp]

theorem hashSeed_runOps (m : ConcurrentMap K V) (ops : List (MapOp K V)) (k : K) :
    (runOps m ops).hashFunc (runOps m ops).seed k = m.hashFunc m.seed k := by
  induction ops generalizing m with
  | nil => rfl
  | cons op rest ih =>
    show (runOps (applyOp m op) rest).hashFunc (runOps (applyOp m op) rest).seed k = _
    rw [ih (applyOp m op), hashSeed_applyOp]

theorem getShardIdx_GetOrSet (m : ConcurrentMap K V) (k1 : K) (v : V) (k : K) :
    getShardIdx (GetOrSet m k1 v).2 k = getShardIdx m k := by
  simp only [GetOrSet]
  cases goLookup (m.shards.getD (getShardIdx m k1) []) k1 <;> rfl

theorem getShardIdx_SetIfAbsent (m : ConcurrentMap K V) (k1 : K) (v : V) (k : K) :
    getShardIdx (SetIfAbsent m k1 v).2 k = getShardIdx m k := by
  simp only [SetIfAbsent]
  cases goLookup (m.shards.getD (getShardIdx m k1) []) k1 <;> rfl

theorem getShardIdx_Remove (m : ConcurrentMap K V) (k1 : K) (k : K) :
    getShardIdx (Remove m k1).2 k = getShardIdx m k := by
  simp only [Remove]
  cases goLookup (m.shards.getD (getShardIdx m k1) []) k1 <;> rfl

theorem getShardIdx_Compute (m : ConcurrentMap K V) (k1 : K)
    (fn : optional.Option V → V) (k : K) :
    getShardIdx (Compute m k1 fn).2 k = getShardIdx m k := by
  simp only [Compute]
  cases goLookup (m.shards.getD (getShardIdx m k1) []) k1 <;> rfl

end cmap

namespace hash

theorem flattenStruct_nil (base : Nat) :
    flattenStruct [] base = [] := by
  rw [flattenStruct.eq_def]

theorem flattenStruct_cons (name : String) (off : Nat) (ty : GoType)
    (rest : List (String × Nat × GoType)) (baseOffset : Nat) :
    flattenStruct ((name, off, ty) :: rest) baseOffset =
    (if name = "_" then []
     else if isSupportedFieldKind ty.kind then
       [⟨baseOffset + off, ty.kind⟩]
     else match ty with
       | .structT fs => flattenStruct fs (baseOffset + off)
       | .scalar _ => []) ++ flattenStruct rest baseOffset := by
  rw [flattenStruct.eq_def]

theorem flattenStruct_supported :
    ∀ (fields : List (String × Nat × GoType)) (base : Nat) (f : fieldInfo),
      f ∈ flattenStruct fields base → isSupportedFieldKind f.kind = true
  | [], base, f, hf => by
    rw [flattenStruct_nil] at hf
    exact absurd hf (List.not_mem_nil f)
  | (name, off, ty) :: rest, base, f, hf => by
    rw [flattenStruct_cons] at hf
    rcases List.mem_append.1 hf with hf | hf
    · by_cases hn : name = "_"
      · rw [if_pos hn] at hf
        exact absurd hf (List.not_mem_nil f)
      · rw [if_neg hn] at hf
        by_cases hs : isSupportedFieldKind ty.kind
        · rw [if_pos hs] at hf
          rcases List.mem_singleton.1 hf with rfl
          exact hs
        · rw [if_neg hs] at hf
          cases ty with
          | structT fs => exact flattenStruct_supported fs (base + off) f hf
          | scalar k => exact absurd hf (List.not_mem_nil f)
    · exact flattenStruct_supported rest base f hf

theorem createStructHash_congr (primHash : GoKind → Nat → Nat → Nat)
    (seed : Nat) (mem1 mem2 : Nat → Nat) (fields : List fieldInfo)
    (hagree : ∀ f ∈ fields, mem1 f.offset = mem2 f.offset) :
    ∀ h, createStructHash primHash seed mem1 fields h
      = createStructHash primHash seed mem2 fields h := by
  induction fields with
  | nil => intro h; rfl
  | cons f rest ih =>
    intro h
    have hf := hagree f (List.mem_cons_self f rest)
    show createStructHash primHash seed mem1 rest _ = createStructHash primHash seed mem2 rest _
    rw [hf, ih (fun g hg => hagree g (List.mem_cons_of_mem f hg))]

theorem createStructHash_foldl (primHash : GoKind → Nat → Nat → Nat)
    (seed : Nat) (mem : Nat → Nat) (fields : List fieldInfo) :
    ∀ h, createStructHash primHash seed mem fields h
      = List.foldl fibMix h (fields.map (fieldDigest primHash seed mem)) := by
  induction fields with
  | nil => intro h; rfl
  | cons f rest ih =>
    intro h
    show createStructHash primHash seed mem rest _ = _
    rw [ih]
    rfl

theorem u32_lt (n : Nat) : u32 n < 2 ^ 32 := by
  have : (4294967296 : Nat) = 2 ^ 32 := by norm_num
  rw [← this]
  exact Nat.mod_lt n (by norm_num)

theorem createStructHash_lt (primHash : GoKind → Nat → Nat → Nat)
    (seed : Nat) (mem : Nat → Nat) (fields : List fieldInfo) :
    ∀ h, h < 2 ^ 32 → createStructHash primHash seed mem fields h < 2 ^ 32 := by
  induction fields with
  | nil => intro h hh; exact hh
  | cons f rest ih =>
    intro h hh
    show createStructHash primHash seed mem rest _ < 2 ^ 32
    exact ih _ (Nat.xor_lt_two_pow hh (u32_lt _))

end hash

/-- Concrete four-shard map over `Nat` keys and values with the identity
digest function and seed 0, used to evaluate the theorems on concrete
inputs. -/
def exMap4 : cmap.ConcurrentMap Nat Nat := cmap.WithShards 4 (fun _ k => k) 0

/-- Concrete mutation sequence: three distinct keys set (one of them
twice), one deleted. -/
def exOps : List (cmap.MapOp Nat Nat) :=
  [.set 0 1, .set 1 2, .set 2 3, .del 1]

/-- Concrete struct-key layout: an `int` field at offset 0 and a pointer
field at offset 8. -/
def exStructFields : List (String × Nat × hash.GoType) :=
  [("A", 0, .scalar .intK), ("P", 8, .scalar .pointerK)]

/-- Concrete instantiation of the per-kind primitive hashers: the digest
of a field is its encoded value. -/
def exPrimHash : hash.GoKind → Nat → Nat → Nat := fun _ _ v => v

/-- Memory of a concrete struct key: int field 5, pointer field (address)
111. -/
def exMemA : Nat → Nat := fun o => if o = 8 then 111 else 5

/-- Memory of a second struct key agreeing with `exMemA` on every
non-pointer field but holding a different pointer (address 222). -/
def exMemB : Nat → Nat := fun o => if o = 8 then 222 else 5

/-- A struct key type that also implements the `Hashable` capability. -/
def exStructTy : hash.KeyType := ⟨none, .structT exStructFields, true, false⟩

/-- A non-builtin, non-struct (slice-kind) key type implementing
`Hashable`. -/
def exSliceHashableTy : hash.KeyType := ⟨none, .scalar .sliceK, true, false⟩

/-- Memory contents of concrete struct keys for the routing witness: the
key `k`'s field at offset `o` holds `o` (identical for all keys). -/
def exStructMem : Nat → Nat → Nat := fun _ o => o

/-- A map whose hash function is the record-layout hasher over
`exStructFields`. -/
def exStructMap : cmap.ConcurrentMap Nat Nat :=
  cmap.WithShards 4
    (fun s key => hash.structHash (hash.flattenStruct exStructFields 0) exPrimHash s (exStructMem key)) 0

/-- Evaluation of the descriptor list of `exStructFields`: both the int
field and the pointer field are included. -/
theorem exStructFields_flatten :
    hash.flattenStruct exStructFields 0 = [⟨0, .intK⟩, ⟨8, .pointerK⟩] := by
  simp [exStructFields, hash.flattenStruct_cons, hash.flattenStruct_nil,
    hash.GoType.kind, hash.isSupportedFieldKind]

/-- C1: for every well-formed map, `GetOrSet(k, v)` returns the existing
value paired with `existed = true` and leaves the map unchanged when `k`
is present; otherwise it stores `v`, returns it paired with
`existed = false`, and changes no other key's binding. -/
theorem C1_getOrSet_spec {K V : Type} [DecidableEq K] [Inhabited V]
    (m : cmap.ConcurrentMap K V) (k : K) (v : V) (hwf : cmap.WF m) :
    (∀ v0, cmap.Get m k = optional.Some v0 →
        cmap.GetOrSet m k v = ((v0, true), m)) ∧
    (cmap.Has m k = false →
        (cmap.GetOrSet m k v).1 = (v, false) ∧
        cmap.Get (cmap.GetOrSet m k v).2 k = optional.Some v ∧
        ∀ k', k' ≠ k → cmap.Get (cmap.GetOrSet m k v).2 k' = cmap.Get m k') := by
  constructor
  · intro v0 hget
    have hl := (cmap.Get_eq_some_iff m k v0).1 hget
    simp only [cmap.GetOrSet]
    rw [hl]
  · intro hhas
    have hl := cmap.Has_false_lookup_none m k hhas
    have hmap : (cmap.GetOrSet m k v).2 = cmap.Set m k v := by
      simp only [cmap.GetOrSet]
      rw [hl]
      rfl
    have hfst : (cmap.GetOrSet m k v).1 = (v, false) := by
      simp only [cmap.GetOrSet]
      rw [hl]
    refine ⟨hfst, ?_, ?_⟩
    · rw [hmap]
      exact cmap.Get_Set_self m k v hwf
    · intro k' hk'
      rw [hmap]
      exact cmap.Get_Set_ne m k k' v hk'

/-- C1 witness: on the concrete map with key 0 absent, `GetOrSet 0 7`
returns `(7, false)` and a subsequent `Get 0` sees `7`. -/
theorem C1_getOrSet_spec_witness :
    (cmap.GetOrSet exMap4 0 7).1 = (7, false) ∧
    cmap.Get (cmap.GetOrSet exMap4 0 7).2 0 = optional.Some 7 := by
  have h := (C1_getOrSet_spec exMap4 0 7 (by decide)).2 (by decide)
  exact ⟨h.1, h.2.1⟩

/-- C2: the digest of `(seed, key)` and the resulting shard index are
pure functions of the map's immutable routing state, and every map
operation (any sequence of `Set`/`Delete`, and each compound operation)
preserves that state, so repeated shard lookups for a key select the same
shard for the instance's lifetime. -/
theorem C2_shardRouting_stable {K V : Type} [DecidableEq K] [Inhabited V]
    (m : cmap.ConcurrentMap K V) (k : K) :
    (∀ ops, cmap.getShardIdx (cmap.runOps m ops) k = cmap.getShardIdx m k) ∧
    (∀ ops, (cmap.runOps m ops).hashFunc (cmap.runOps m ops).seed k
        = m.hashFunc m.seed k) ∧
    (∀ k1 v, cmap.getShardIdx (cmap.GetOrSet m k1 v).2 k = cmap.getShardIdx m k) ∧
    (∀ k1 v, cmap.getShardIdx (cmap.SetIfAbsent m k1 v).2 k = cmap.getShardIdx m k) ∧
    (∀ k1, cmap.getShardIdx (cmap.Remove m k1).2 k = cmap.getShardIdx m k) ∧
    (∀ k1 fn, cmap.getShardIdx (cmap.Compute m k1 fn).2 k = cmap.getShardIdx m k) :=
  ⟨fun ops => cmap.getShardIdx_runOps m ops k,
   fun ops => cmap.hashSeed_runOps m ops k,
   fun k1 v => cmap.getShardIdx_GetOrSet m k1 v k,
   fun k1 v => cmap.getShardIdx_SetIfAbsent m k1 v k,
   fun k1 => cmap.getShardIdx_Remove m k1 k,
   fun k1 fn => cmap.getShardIdx_Compute m k1 fn k⟩

/-- C3 counterexample: at the hint `2^32 + 1` the construction produces
`2^33 - 1` shards, which is not a power of two at all, so the internal
count is not "the least power of two greater than or equal to the hint"
for every positive hint (the five smear steps of `nextPowerOf2` only
cover 32 bits). -/
theorem C3_counterexample_not_least_pow2 :
    (cmap.WithShards (K := Nat) (V := Nat) (2 ^ 32 + 1) (fun _ k => k) 0).shards.length
        = 2 ^ 33 - 1 ∧
    ∀ j : Nat,
      (cmap.WithShards (K := Nat) (V := Nat) (2 ^ 32 + 1) (fun _ k => k) 0).shards.length
        ≠ 2 ^ j := by
  have hlen : (cmap.WithShards (K := Nat) (V := Nat) (2 ^ 32 + 1) (fun _ k => k) 0).shards.length
      = 2 ^ 33 - 1 := by
    rw [cmap.WithShards_shards_length]
    decide
  refine ⟨hlen, ?_⟩
  intro j
  rw [hlen]
  cases j with
  | zero => decide
  | succ i =>
    intro he
    have h2 : (2 : Nat) ^ (i + 1) % 2 = 0 := by
      rw [pow_succ]
      exact Nat.mul_mod_left _ 2
    have h1 : ((2 : Nat) ^ 33 - 1) % 2 = 1 := by decide
    rw [← he] at h2
    omega

/-- C3 (amended): construction normalizes the shard-count hint — 5 yields
8 shards, 32 yields 32, a non-positive hint yields the default 32 — and
for every positive hint up to `2^32` the internal count is the least
power of two greater than or equal to the hint.  (Beyond `2^32` the
16-bit smear window of `nextPowerOf2` is too narrow and the result need
not be a power of two; see the counterexample.) -/
theorem C3_withShards_count_spec {K V : Type} [DecidableEq K] [Inhabited V]
    (hf : Nat → K → Nat) (seed : Nat) :
    (cmap.WithShards (K := K) (V := V) 5 hf seed).shards.length = 8 ∧
    (cmap.WithShards (K := K) (V := V) 0 hf seed).shards.length = 32 ∧
    (cmap.WithShards (K := K) (V := V) (-7) hf seed).shards.length = 32 ∧
    (cmap.WithShards (K := K) (V := V) 32 hf seed).shards.length = 32 ∧
    ∀ n : Nat, 1 ≤ n → n ≤ 2 ^ 32 →
      ∃ j, (cmap.WithShards (K := K) (V := V) (Int.ofNat n) hf seed).shards.length = 2 ^ j
        ∧ n ≤ 2 ^ j ∧ 2 ^ j < 2 * n := by
  refine ⟨?_, ?_, ?_, ?_, ?_⟩
  · rw [cmap.WithShards_shards_length]; decide
  · rw [cmap.WithShards_shards_length]; decide
  · rw [cmap.WithShards_shards_length]; decide
  · rw [cmap.WithShards_shards_length]; decide
  · intro n h1 h2
    rw [cmap.WithShards_shards_length]
    have hpos : (0 : Int) < Int.ofNat n := by
      show Int.ofNat 0 < Int.ofNat n
      exact Int.ofNat_lt.2 h1
    rw [if_neg (not_le.2 hpos)]
    show ∃ j, cmap.nextPowerOf2 n = 2 ^ j ∧ n ≤ 2 ^ j ∧ 2 ^ j < 2 * n
    exact cmap.nextPowerOf2_spec n h1 h2

/-- C3 witness: hint 6 yields the least power of two at least 6, namely
8. -/
theorem C3_withShards_count_spec_witness :
    ∃ j, (cmap.WithShards (K := Nat) (V := Nat) (Int.ofNat 6) (fun _ k => k) 0).shards.length = 2 ^ j
      ∧ 6 ≤ 2 ^ j ∧ 2 ^ j < 2 * 6 :=
  (C3_withShards_count_spec (fun _ k => k) 0).2.2.2.2 6 (by decide) (by decide)

/-- C4 counterexample: the descriptor list for a struct with a pointer
field contains that pointer (indirection) field, and two keys that agree
on every supported primitive field but differ in the pointer field
receive different digests — contradicting "indirections are excluded and
contribute nothing to the digest". -/
theorem C4_counterexample_pointer_included :
    ((hash.flattenStruct exStructFields 0).filter (fun f => f.kind == .pointerK) ≠ []) ∧
    exMemA 0 = exMemB 0 ∧
    exMemA 8 ≠ exMemB 8 ∧
    hash.structHash (hash.flattenStruct exStructFields 0) exPrimHash 0 exMemA ≠
      hash.structHash (hash.flattenStruct exStructFields 0) exPrimHash 0 exMemB := by
  rw [exStructFields_flatten]
  exact ⟨by decide, by decide, by decide, by decide⟩

/-- C4 (amended): every descriptor produced by `flattenStruct` has a kind
from the supported case list (so slices, arrays, maps, channels,
functions, interfaces and complex numbers are excluded — but pointers are
included); the record-layout digest depends only on the memory at the
descriptor offsets, so two keys of the same type and seed that agree on
all descriptor fields (supported primitives and pointers) receive the
same digest and route to the same shard. -/
theorem C4_struct_digest_from_descriptors {K V : Type} [DecidableEq K] [Inhabited V]
    (fields : List (String × Nat × hash.GoType))
    (primHash : hash.GoKind → Nat → Nat → Nat) (seed : Nat)
    (m : cmap.ConcurrentMap K V) (toMem : K → Nat → Nat) (k1 k2 : K)
    (hhf : m.hashFunc = fun s key =>
      hash.structHash (hash.flattenStruct fields 0) primHash s (toMem key))
    (hagree : ∀ f ∈ hash.flattenStruct fields 0, toMem k1 f.offset = toMem k2 f.offset) :
    (∀ f ∈ hash.flattenStruct fields 0, hash.isSupportedFieldKind f.kind = true) ∧
    hash.structHash (hash.flattenStruct fields 0) primHash seed (toMem k1) =
      hash.structHash (hash.flattenStruct fields 0) primHash seed (toMem k2) ∧
    cmap.getShardIdx m k1 = cmap.getShardIdx m k2 := by
  have hdig : ∀ s, hash.structHash (hash.flattenStruct fields 0) primHash s (toMem k1)
      = hash.structHash (hash.flattenStruct fields 0) primHash s (toMem k2) := fun s =>
    hash.createStructHash_congr primHash s (toMem k1) (toMem k2) _ hagree 0
  refine ⟨fun f hf => hash.flattenStruct_supported fields 0 f hf, hdig seed, ?_⟩
  unfold cmap.getShardIdx
  rw [hhf]
  show hash.structHash (hash.flattenStruct fields 0) primHash m.seed (toMem k1) &&& m.shardMask
    = hash.structHash (hash.flattenStruct fields 0) primHash m.seed (toMem k2) &&& m.shardMask
  rw [hdig m.seed]

/-- C4 witness: two concrete struct keys with identical field memory get
the same digest and the same shard of `exStructMap`. -/
theorem C4_struct_digest_witness :
    hash.structHash (hash.flattenStruct exStructFields 0) exPrimHash 0 (exStructMem 0) =
      hash.structHash (hash.flattenStruct exStructFields 0) exPrimHash 0 (exStructMem 1) ∧
    cmap.getShardIdx exStructMap 0 = cmap.getShardIdx exStructMap 1 := by
  have hagree : ∀ f ∈ hash.flattenStruct exStructFields 0,
      exStructMem 0 f.offset = exStructMem 1 f.offset := by
    simp only [exStructFields_flatten]
    decide
  have h := C4_struct_digest_from_descriptors exStructFields exPrimHash 0
    exStructMap exStructMem 0 1 rfl hagree
  exact ⟨h.2.1, h.2.2⟩

/-- C5 counterexample: for a struct key type that supplies the
self-hashing capability, `GetHashFunc` still selects the record-layout
strategy: the resulting digest is independent of the capability and does
not equal the capability's digest — contradicting "the capability takes
priority over the record-layout strategy". -/
theorem C5_counterexample_struct_ignores_hashable :
    exStructTy.hashable = true ∧
    hash.GetHashFunc exStructTy = .structLayout (hash.flattenStruct exStructFields 0) ∧
    hash.hashKey exStructTy exPrimHash (fun _ => 12345) (fun _ => 0) (fun _ => 0) exMemA 0 ≠ 12345 ∧
    hash.hashKey exStructTy exPrimHash (fun _ => 12345) (fun _ => 0) (fun _ => 0) exMemA 0 =
      hash.hashKey exStructTy exPrimHash (fun _ => 54321) (fun _ => 0) (fun _ => 0) exMemA 0 := by
  have heq : ∀ sh : Nat → Nat,
      hash.hashKey exStructTy exPrimHash sh (fun _ => 0) (fun _ => 0) exMemA 0 =
        hash.structHash (hash.flattenStruct exStructFields 0) exPrimHash 0 exMemA :=
    fun sh => rfl
  refine ⟨rfl, rfl, ?_, ?_⟩
  · rw [heq, exStructFields_flatten]
    decide
  · rw [heq, heq]

/-- C5 (amended): the self-hashing capability is invoked exactly for key
types outside the builtin type switch whose kind is not `Struct`; for
struct kinds `GetHashFunc` uses the record-layout strategy even when the
capability is supplied. -/
theorem C5_capability_dispatch :
    (∀ (t : hash.KeyType) (ph : hash.GoKind → Nat → Nat → Nat)
        (sh st eh mem : Nat → Nat) (seed : Nat),
        t.builtin = none → t.ty.kind ≠ .structK → t.hashable = true →
        hash.hashKey t ph sh st eh mem seed = hash.u32 (sh seed)) ∧
    (∀ (t : hash.KeyType) (fs : List (String × Nat × hash.GoType))
        (ph : hash.GoKind → Nat → Nat → Nat) (sh st eh mem : Nat → Nat) (seed : Nat),
        t.builtin = none → t.ty = .structT fs →
        hash.hashKey t ph sh st eh mem seed
          = hash.structHash (hash.flattenStruct fs 0) ph seed mem) := by
  constructor
  · intro t ph sh st eh mem seed hb hns hh
    obtain ⟨b, ty, hsb, str⟩ := t
    subst hb
    cases ty with
    | scalar kk =>
      have hh2 : hsb = true := hh
      subst hh2
      rfl
    | structT fs => exact absurd rfl hns
  · intro t fs ph sh st eh mem seed hb hty
    obtain ⟨b, ty, hsb, str⟩ := t
    subst hb
    subst hty
    rfl

/-- C5 witness: a slice-kind key type with the capability gets its own
digest back from the derived hasher. -/
theorem C5_capability_dispatch_witness :
    hash.hashKey exSliceHashableTy exPrimHash (fun _ => 77) (fun _ => 0) (fun _ => 0) exMemA 3
      = hash.u32 77 :=
  C5_capability_dispatch.1 exSliceHashableTy exPrimHash (fun _ => 77) (fun _ => 0)
    (fun _ => 0) exMemA 3 rfl (by decide) rfl

/-- C6: the record-layout digest is the left fold, over the per-field
digests in descriptor order starting from `h = 0`, of
`h = h XOR (fieldDigest + 0x9e3779b9 + (h << 6) + (h >> 2))` in 32-bit
unsigned arithmetic, and the digest stays below `2^32`. -/
theorem C6_structHash_foldl (fields : List hash.fieldInfo)
    (primHash : hash.GoKind → Nat → Nat → Nat) (seed : Nat) (mem : Nat → Nat) :
    hash.structHash fields primHash seed mem =
      List.foldl hash.fibMix 0 (fields.map (hash.fieldDigest primHash seed mem)) ∧
    hash.structHash fields primHash seed mem < 2 ^ 32 :=
  ⟨hash.createStructHash_foldl primHash seed mem fields 0,
   hash.createStructHash_lt primHash seed mem fields 0 (by norm_num)⟩

/-- C7 counterexample: `Delete` has no return value beyond the updated
map, and that result is identical for a call where the key was present
and a call where it was absent — so `Delete` does not report whether a
removal occurred, contradicting `delete(key) -> bool`. -/
theorem C7_counterexample_delete_reports_nothing :
    cmap.Has (cmap.Set exMap4 0 1) 0 = true ∧
    cmap.Has exMap4 0 = false ∧
    cmap.Delete (cmap.Set exMap4 0 1) 0 = cmap.Delete exMap4 0 :=
  ⟨by decide, by decide, rfl⟩

/-- C7 (amended): `Delete(k)` removes `k` if present, leaves every other
key's binding unchanged, and leaves the map unchanged when `k` is absent;
it returns nothing, so whether a removal occurred is not reported (that
information is available from `Remove`). -/
theorem C7_delete_spec {K V : Type} [DecidableEq K] [Inhabited V]
    (m : cmap.ConcurrentMap K V) (k : K) (hwf : cmap.WF m) :
    cmap.Get (cmap.Delete m k) k = optional.None ∧
    (∀ k', k' ≠ k → cmap.Get (cmap.Delete m k) k' = cmap.Get m k') ∧
    (cmap.Has m k = false → cmap.Delete m k = m) := by
  refine ⟨cmap.Get_Delete_self m k hwf, fun k' hk => cmap.Get_Delete_ne m k k' hk, ?_⟩
  intro hhas
  have hl := cmap.Has_false_lookup_none m k hhas
  show cmap.ConcurrentMap.mk
      (m.shards.set (cmap.getShardIdx m k)
        (cmap.goDelete (m.shards.getD (cmap.getShardIdx m k) []) k))
      m.shardMask m.hashFunc m.seed = m
  rw [cmap.goDelete_of_absent _ _ hl,
    cmap.set_getD_self _ _ _ (cmap.getShardIdx_lt m k hwf)]

/-- C7 witness: deleting a present key empties its binding; deleting an
absent key returns the map unchanged. -/
theorem C7_delete_spec_witness :
    cmap.Get (cmap.Delete (cmap.Set exMap4 0 1) 0) 0 = optional.None ∧
    cmap.Delete exMap4 5 = exMap4 :=
  ⟨(C7_delete_spec (cmap.Set exMap4 0 1) 0 (by decide)).1,
   (C7_delete_spec exMap4 5 (by decide)).2.2 (by decide)⟩

/-- C8: `Remove(k)` returns the prior value wrapped present and removes
`k` when present (other keys unchanged); when `k` is absent it returns
the absent wrapper and the completely unchanged map — an Option in both
cases, never a raw sentinel. -/
theorem C8_remove_spec {K V : Type} [DecidableEq K] [Inhabited V]
    (m : cmap.ConcurrentMap K V) (k : K) (hwf : cmap.WF m) :
    (∀ v0, cmap.Get m k = optional.Some v0 →
        (cmap.Remove m k).1 = optional.Some v0 ∧
        cmap.Get (cmap.Remove m k).2 k = optional.None ∧
        ∀ k', k' ≠ k → cmap.Get (cmap.Remove m k).2 k' = cmap.Get m k') ∧
    (cmap.Has m k = false → cmap.Remove m k = (optional.None, m)) := by
  constructor
  · intro v0 hget
    have hl := (cmap.Get_eq_some_iff m k v0).1 hget
    have hmap : (cmap.Remove m k).2 = cmap.Delete m k := by
      simp only [cmap.Remove]
      rw [hl]
      rfl
    have hfst : (cmap.Remove m k).1 = optional.Some v0 := by
      simp only [cmap.Remove]
      rw [hl]
      rfl
    refine ⟨hfst, ?_, ?_⟩
    · rw [hmap]
      exact cmap.Get_Delete_self m k hwf
    · intro k' hk
      rw [hmap]
      exact cmap.Get_Delete_ne m k k' hk
  · intro hhas
    have hl := cmap.Has_false_lookup_none m k hhas
    simp only [cmap.Remove]
    rw [hl]
    rfl

/-- C8 witness: removing a present key returns its value and empties the
binding; removing an absent key returns the absent wrapper and the same
map. -/
theorem C8_remove_spec_witness :
    (cmap.Remove (cmap.Set exMap4 0 5) 0).1 = optional.Some 5 ∧
    cmap.Get (cmap.Remove (cmap.Set exMap4 0 5) 0).2 0 = optional.None ∧
    cmap.Remove exMap4 3 = (optional.None, exMap4) := by
  have h1 := (C8_remove_spec (cmap.Set exMap4 0 5) 0 (by decide)).1 5 (by decide)
  have h2 := (C8_remove_spec exMap4 3 (by decide)).2 (by decide)
  exact ⟨h1.1, h1.2.1, h2⟩

/-- C9: starting from a fresh map, after any sequence of `Set` and
`Delete` calls `Len()` equals the number of surviving keys (distinct keys
set and not subsequently deleted); and no key ever resides in two
different shards, so summing shard sizes counts each key exactly once. -/
theorem C9_len_counts_survivors {K V : Type} [DecidableEq K] [Inhabited V]
    (hint : Int) (hf : Nat → K → Nat) (seed : Nat) (ops : List (cmap.MapOp K V)) :
    cmap.Len (cmap.runOps (cmap.WithShards hint hf seed) ops)
      = (cmap.survivors ops).length ∧
    ∀ i j k, i ≠ j →
      cmap.InShard (cmap.runOps (cmap.WithShards hint hf seed) ops) i k →
      cmap.InShard (cmap.runOps (cmap.WithShards hint hf seed) ops) j k → False := by
  have hinv := cmap.Inv_run (cmap.WithShards hint hf seed) [] ops
    (cmap.Inv_init hint hf seed)
  obtain ⟨hwf, hr, hlen, hnd, hmem⟩ := hinv
  refine ⟨hlen, ?_⟩
  intro i j k hij hi hj
  rcases List.mem_map.1 hi with ⟨p, hp, hpfst⟩
  rcases List.mem_map.1 hj with ⟨q, hq, hqfst⟩
  have h1 := hr i p hp
  have h2 := hr j q hq
  rw [hpfst] at h1
  rw [hqfst] at h2
  exact hij (by rw [← h1, ← h2])

/-- C9 witness: on a concrete fresh map, `[set 0, set 1, set 2, del 1]`
leaves exactly two keys and `Len` reports 2. -/
theorem C9_len_counts_survivors_witness :
    cmap.Len (cmap.runOps (cmap.WithShards (K := Nat) (V := Nat) 4 (fun _ k => k) 0) exOps)
      = 2 := by
  have h := (C9_len_counts_survivors 4 (fun _ k => k) 0 exOps).1
  rw [h]
  decide

/-- C10: evaluation of the code at the failing inputs — an Option
produced by a `Get` miss (or `Remove` miss) has `IsPresent() = false` and
also `IsAbsent() = false`, and one produced by a `Get` hit has
`IsPresent() = true` and also `IsAbsent() = true`, because
`Option.IsAbsent` (src/optional/doc.go:292) returns
`o.state != stateAbsent` instead of the complement of `IsPresent`
promised by its own documentation (and implemented in the boolean-flag
variant, src/unnamed/part_016). -/
theorem C10_isAbsent_inverted :
    ((cmap.Get exMap4 0).IsPresent = false ∧ (cmap.Get exMap4 0).IsAbsent = false) ∧
    ((cmap.Get (cmap.Set exMap4 0 1) 0).IsPresent = true ∧
      (cmap.Get (cmap.Set exMap4 0 1) 0).IsAbsent = true) ∧
    ((cmap.Remove exMap4 0).1.IsPresent = false ∧
      (cmap.Remove exMap4 0).1.IsAbsent = false) := by
  decide
